import Mathlib

/-!
Verification of the quasi-stable coloring refinement engine
(`examples/QuasiStableColoring/quasiStableColoring.py`).

The engine maintains a partition `p` of the `v` nodes of a directed weighted
graph into colors, together with two `ColorStatus` records (one per edge
direction).  Each status holds a node-by-color weight matrix `neighbor` and
color-by-color `upper` / `lower` / `errors` matrices over the active
`m × m` block, where `m = p.length`.

Edge weights are modelled as exact rationals (`ℚ`); matrices are modelled as
total functions, with every claim restricted to the active block actually
written by the code.  The capacity-doubling backing buffers (`resize`) only
preallocate storage and never change the active block, so capacity is not
tracked.
-/

/-- A weighted adjacency source: `w u x` is the edge weight from `u` to `x`. -/
abbrev Weights := Nat → Nat → ℚ

/-- The transposed adjacency, used by the incoming-direction status
(`weights.t()` in `q_color`). -/
def transposeW (w : Weights) : Weights := fun u x => w x u

/-- An ordered sequence of colors, each a list of node identifiers
(`self.p` in the code). -/
abbrev Partition := List (List Nat)

/-- Total weight from node `u` into the node set `X`
(`weights[:, X].sum(axis=1)` for row `u`, and also the entry `(u, c)` of
`weights @ partition_matrix` when `X` is color `c`). -/
def degSum (w : Weights) (X : List Nat) (u : Nat) : ℚ :=
  (X.map fun x => w u x).sum

/-- Maximum of a list of rationals, `torch.max` style (junk `0` on `[]`,
which the code never evaluates: colors are non-empty). -/
def listMax : List ℚ → ℚ
  | [] => 0
  | x :: xs => xs.foldl max x

/-- Minimum of a list of rationals (`torch.min`). -/
def listMin : List ℚ → ℚ
  | [] => 0
  | x :: xs => xs.foldl min x

/-- Mean of a list of rationals (`tensor.mean()`). -/
def listMean (l : List ℚ) : ℚ := l.sum / (l.length : ℚ)

/-- One direction's bookkeeping (`ColorStatus` in the code): the
node-by-color `neighbor` matrix and the color-by-color `upper`, `lower`
and `errors` matrices, modelled as total functions whose meaningful part
is the active block. -/
structure ColorStatus where
  neighbor : Nat → Nat → ℚ
  upper : Nat → Nat → ℚ
  lower : Nat → Nat → ℚ
  errors : Nat → Nat → ℚ

/-- Entry `(u, c)` of the from-scratch neighbor matrix of `init_status`:
total weight from node `u` to the members of color `c`. -/
def nbInit (w : Weights) (p : Partition) (u c : Nat) : ℚ :=
  degSum w (p.getD c []) u

/-- A row-aggregate of the neighbor matrix over the members of color `i`
at column `j`; with `agg = listMax` this is `upper[i][j]`, with
`agg = listMin` it is `lower[i][j]`. -/
def aggInit (agg : List ℚ → ℚ) (w : Weights) (p : Partition) (i j : Nat) : ℚ :=
  agg ((p.getD i []).map fun u => nbInit w p u j)

/-- `upper[i][j]` as computed from scratch by `init_status`. -/
def upInit (w : Weights) (p : Partition) (i j : Nat) : ℚ :=
  aggInit listMax w p i j

/-- `lower[i][j]` as computed from scratch by `init_status`. -/
def loInit (w : Weights) (p : Partition) (i j : Nat) : ℚ :=
  aggInit listMin w p i j

/-- `errors[i][j] = upper[i][j] - lower[i][j]` as computed by `init_status`. -/
def errInit (w : Weights) (p : Partition) (i j : Nat) : ℚ :=
  upInit w p i j - loInit w p i j

/-- `init_status`: the status computed from scratch on partition `p` with
the given direction's weights. -/
def initStatus (w : Weights) (p : Partition) : ColorStatus :=
  { neighbor := nbInit w p
    upper := upInit w p
    lower := loInit w p
    errors := errInit w p }

/-- The neighbor matrix after `update_status`: one zero column is appended
at index `newC` and then the columns `oldC` and `newC` are recomputed from
the weights and the current partition; other columns keep their values. -/
def updNb (s : ColorStatus) (w : Weights) (p : Partition) (oldC newC : Nat)
    (u c : Nat) : ℚ :=
  if c = oldC then degSum w (p.getD oldC []) u
  else if c = newC then degSum w (p.getD newC []) u
  else s.neighbor u c

/-- The row phase of `update_status` on an aggregate matrix: rows `oldC`
and `newC` are recomputed from the updated neighbor matrix `nb`; other
rows keep their previous values `base`. -/
def updRows (agg : List ℚ → ℚ) (base : Nat → Nat → ℚ) (nb : Nat → Nat → ℚ)
    (p : Partition) (oldC newC : Nat) (i j : Nat) : ℚ :=
  if i = oldC then agg ((p.getD oldC []).map fun u => nb u j)
  else if i = newC then agg ((p.getD newC []).map fun u => nb u j)
  else base i j

/-- The column phase of `update_status` (the `for i, X in enumerate(self.p)`
loop, which runs after the row phase and therefore wins at intersections):
entries in columns `oldC` and `newC` are recomputed for every row. -/
def updCols (agg : List ℚ → ℚ) (base : Nat → Nat → ℚ) (nb : Nat → Nat → ℚ)
    (p : Partition) (oldC newC : Nat) (i j : Nat) : ℚ :=
  if j = oldC then agg ((p.getD i []).map fun u => nb u oldC)
  else if j = newC then agg ((p.getD i []).map fun u => nb u newC)
  else updRows agg base nb p oldC newC i j

/-- `update_status(color_status, weights, old, new)`: incremental repair
after a split moved some members of color `oldC` into the appended color
`newC`.  `p` is the post-split partition.  `errors` is refreshed as
`upper - lower` over the whole active block. -/
def updateStatus (s : ColorStatus) (w : Weights) (p : Partition)
    (oldC newC : Nat) : ColorStatus :=
  { neighbor := updNb s w p oldC newC
    upper := updCols listMax s.upper (updNb s w p oldC newC) p oldC newC
    lower := updCols listMin s.lower (updNb s w p oldC newC) p oldC newC
    errors := fun i j =>
      updCols listMax s.upper (updNb s w p oldC newC) p oldC newC i j -
        updCols listMin s.lower (updNb s w p oldC newC) p oldC newC i j }

/-- The partition produced by replacing color `wi` with the members failing
`pred` and appending the members satisfying `pred` as a new color. -/
def splitParts (p : Partition) (wi : Nat) (pred : Nat → Bool) : Partition :=
  (p.set wi ((p.getD wi []).filter fun u => !(pred u))) ++
    [(p.getD wi []).filter pred]

/-- `split_color`: split color `wi` by the predicate
`neighbor[node][wj] > threshold`; nodes above the threshold are ejected
into a new color appended at the end, the rest are retained at index `wi`.
Returns `none` (the `assert len(retain) != 0` / `assert len(eject) != 0`
failure) when either side is empty. -/
def splitColor (s : ColorStatus) (p : Partition) (wi wj : Nat) (t : ℚ) :
    Option Partition :=
  let arr := p.getD wi []
  let eject := arr.filter fun u => decide (t < s.neighbor u wj)
  let retain := arr.filter fun u => !decide (t < s.neighbor u wj)
  if retain.isEmpty || eject.isEmpty then none
  else some ((p.set wi retain) ++ [eject])

/-- Index of the first maximum of `f` over `0, ..., k-1`
(`torch.argmax` returns the first maximal entry of the flattened tensor;
an entry replaces the current best only when strictly larger). -/
def argmaxUpTo (f : Nat → ℚ) : Nat → Nat
  | 0 => 0
  | k + 1 =>
    let b := argmaxUpTo f k
    if f b < f k then k else b

/-- `pick_witness`: scan the active `m × m` block of `errors` in row-major
order for its first maximum at flat index `t`, return the color pair
`(t / m, t % m)`, the mean of the neighbor column `t % m` over the members
of color `t / m` (the split threshold), and the maximal error value. -/
def pickWitness (s : ColorStatus) (p : Partition) : Nat × Nat × ℚ × ℚ :=
  let m := p.length
  let t := argmaxUpTo (fun t => s.errors (t / m) (t % m)) (m * m)
  (t / m, t % m,
    listMean ((p.getD (t / m) []).map fun u => s.neighbor u (t % m)),
    s.errors (t / m) (t % m))

/-- The maximum of `errors` over the active `m × m` block, in the same
row-major flattening the code scans. -/
def maxErrBlock (s : ColorStatus) (m : Nat) : ℚ :=
  listMax ((List.range (m * m)).map fun t => s.errors (t / m) (t % m))

/-- The `n_colors` cap: `none` models the default `np.Inf` (unbounded).
`belowCap m nc` is the loop guard `len(self.p) < n_colors`. -/
def belowCap (m : Nat) : Option Nat → Bool
  | none => true
  | some k => decide (m < k)

/-- Whether the configured color cap is at most one color. -/
def capLe1 : Option Nat → Bool
  | none => false
  | some k => decide (k ≤ 1)

/-- The refinement engine's state: the partition and the two directional
statuses (`self.p`, `color_status_out`, `color_status_in`). -/
structure EngineState where
  p : Partition
  out : ColorStatus
  inc : ColorStatus

/-- The state after construction and `init_status` on both directions:
one color holding all `v` nodes (`torch.arange(v)`). -/
def initState (w : Weights) (v : Nat) : EngineState :=
  { p := [List.range v]
    out := initStatus w [List.range v]
    inc := initStatus (transposeW w) [List.range v] }

/-- Result of one iteration of the `q_color` loop: the loop exits
(`stop`), continues with a mutated state (`next`), or aborts on a
degenerate split (`fail`, the `AssertionError` in `split_color`). -/
inductive StepResult where
  | stop (st : EngineState)
  | next (st : EngineState)
  | fail

/-- The state carried by a `stop` or `next` result (junk on `fail`). -/
def stepState : StepResult → EngineState
  | .stop st => st
  | .next st => st
  | .fail =>
    { p := []
      out := ⟨fun _ _ => 0, fun _ _ => 0, fun _ _ => 0, fun _ _ => 0⟩
      inc := ⟨fun _ _ => 0, fun _ _ => 0, fun _ _ => 0, fun _ _ => 0⟩ }

/-- Whether a step result continues the loop. -/
def isNext : StepResult → Bool
  | .next _ => true
  | _ => false

/-- Split the witness `r` of status `sC` and push the incremental update
into both statuses (`update_status` with the direction's own weights,
`old = witness_i`, `new = len(self.p) - 1` post-split). -/
def actOn (w : Weights) (st : EngineState) (sC : ColorStatus)
    (r : Nat × Nat × ℚ × ℚ) : StepResult :=
  match splitColor sC st.p r.1 r.2.1 r.2.2.1 with
  | none => .fail
  | some p' =>
    .next { p := p'
            out := updateStatus st.out w p' r.1 (p'.length - 1)
            inc := updateStatus st.inc (transposeW w) p' r.1 (p'.length - 1) }

/-- One iteration of the `while len(self.p) < n_colors` loop of `q_color`:
check the cap, pick both witnesses, stop when both max errors are within
tolerance, otherwise act on the direction with the larger max error
(ties favor the outgoing direction: `q_error_out >= q_error_in`). -/
def qColorStep (w : Weights) (nc : Option Nat) (qe : ℚ) (st : EngineState) :
    StepResult :=
  if belowCap st.p.length nc then
    if (pickWitness st.inc st.p).2.2.2 ≤ qe ∧ (pickWitness st.out st.p).2.2.2 ≤ qe then
      .stop st
    else if (pickWitness st.inc st.p).2.2.2 ≤ (pickWitness st.out st.p).2.2.2 then
      actOn w st st.out (pickWitness st.out st.p)
    else actOn w st st.inc (pickWitness st.inc st.p)
  else .stop st

/-- The `q_color` loop, fuel-indexed; `none` models the run aborting on a
degenerate split. -/
def qColorLoop (w : Weights) (nc : Option Nat) (qe : ℚ) :
    Nat → EngineState → Option EngineState
  | 0, st => some st
  | fuel + 1, st =>
    match qColorStep w nc qe st with
    | .stop st' => some st'
    | .next st' => qColorLoop w nc qe fuel st'
    | .fail => none

/-- The final `q_error` reported by `q_color`: the max of the two
directions' current maximal error at exit. -/
def finalQ (st : EngineState) : ℚ :=
  max (pickWitness st.out st.p).2.2.2 (pickWitness st.inc st.p).2.2.2

/-- `q_color(weighting, n_colors, q_errors)`: run the loop from the initial
one-color state and report the final partition and `q_error`.  The
`weighting` flag is accepted but never read, exactly as in the source. -/
def qColor (w : Weights) (v : Nat) (weighting : Bool) (nc : Option Nat)
    (qe : ℚ) (fuel : Nat) : Option (Partition × ℚ) :=
  match qColorLoop w nc qe fuel (initState w v) with
  | none => none
  | some st => some (st.p, finalQ st)

/-- Reachable engine states: the initial state, closed under loop
iterations that continue. -/
inductive Reach (w : Weights) (v : Nat) (nc : Option Nat) (qe : ℚ) :
    EngineState → Prop
  | init : Reach w v nc qe (initState w v)
  | step {st st'} : Reach w v nc qe st → qColorStep w nc qe st = .next st' →
      Reach w v nc qe st'

/-- A complete run of the loop as a relation: from state `st` the loop
terminates in state `stF`. -/
inductive Run (w : Weights) (nc : Option Nat) (qe : ℚ) :
    EngineState → EngineState → Prop
  | stop {st st'} : qColorStep w nc qe st = .stop st' → Run w nc qe st st'
  | next {st st' stF} : qColorStep w nc qe st = .next st' →
      Run w nc qe st' stF → Run w nc qe st stF

/-- Two statuses agree on the neighbor columns and the `m × m` blocks of
`upper`, `lower` and `errors`. -/
def AgreesOn (m : Nat) (s s' : ColorStatus) : Prop :=
  (∀ u c, c < m → s.neighbor u c = s'.neighbor u c) ∧
    (∀ i j, i < m → j < m →
      s.upper i j = s'.upper i j ∧ s.lower i j = s'.lower i j ∧
        s.errors i j = s'.errors i j)

/-- A status is consistent with partition `p`: it agrees on the active
extents with what `init_status` computes from scratch. -/
def StatusInv (w : Weights) (p : Partition) (s : ColorStatus) : Prop :=
  AgreesOn p.length s (initStatus w p)

/-- The partition invariant: every color is non-empty, distinct colors are
disjoint, and the colors cover exactly the nodes `0, ..., v-1`. -/
def PartInv (v : Nat) (p : Partition) : Prop :=
  (∀ k, k < p.length → p.getD k [] ≠ []) ∧
    (∀ i j, i < p.length → j < p.length → i ≠ j →
      ∀ u, u ∈ p.getD i [] → u ∉ p.getD j []) ∧
    (∀ u, u < v ↔ ∃ k, k < p.length ∧ u ∈ p.getD k [])

/-- An edgeless graph on one node, for witness instances. -/
def w0 : Weights := fun _ _ => 0

/-- A two-node graph with a single edge `1 -> 0` of weight 1. -/
def w2 : Weights := fun u x =>
  match u, x with
  | 1, 0 => 1
  | _, _ => 0

/-- A three-node graph with edges `0 -> 2` (weight 1) and `1 -> 2`
(weight 3). -/
def w3 : Weights := fun u x =>
  match u, x with
  | 0, 2 => 1
  | 1, 2 => 3
  | _, _ => 0

/-- A four-node graph (row sums 4, 4, 5, 5 and column sums 5, 5, 4, 4)
whose first split raises the recomputed error on the acted pair. -/
def W4 : Weights := fun u x =>
  match u, x with
  | 0, 2 => 4
  | 1, 0 => 4
  | 2, 1 => 3
  | 2, 3 => 2
  | 3, 0 => 1
  | 3, 1 => 2
  | 3, 3 => 2
  | _, _ => 0

/-! ### Elementary facts about `listMax`, `listMin` -/

theorem le_foldl_max (xs : List ℚ) (b : ℚ) : b ≤ xs.foldl max b := by
  induction xs generalizing b with
  | nil => exact le_refl b
  | cons x xs ih => exact le_trans (le_max_left b x) (ih (max b x))

theorem mem_le_foldl_max {a : ℚ} {xs : List ℚ} (h : a ∈ xs) (b : ℚ) :
    a ≤ xs.foldl max b := by
  induction xs generalizing b with
  | nil => cases h
  | cons y ys ih =>
    rcases List.mem_cons.mp h with rfl | hm
    · exact le_trans (le_max_right b a) (le_foldl_max ys (max b a))
    · exact ih hm (max b y)

theorem foldl_max_choice (xs : List ℚ) (b : ℚ) :
    xs.foldl max b = b ∨ xs.foldl max b ∈ xs := by
  induction xs generalizing b with
  | nil => exact Or.inl rfl
  | cons y ys ih =>
    show ys.foldl max (max b y) = b ∨ ys.foldl max (max b y) ∈ y :: ys
    rcases ih (max b y) with h | h
    · rcases max_choice b y with hb | hy
      · rw [hb] at h ⊢
        exact Or.inl h
      · exact Or.inr (by rw [h, hy]; exact List.mem_cons_self y ys)
    · exact Or.inr (List.mem_cons_of_mem y h)

theorem le_listMax {a : ℚ} {l : List ℚ} (h : a ∈ l) : a ≤ listMax l := by
  cases l with
  | nil => cases h
  | cons x xs =>
    rcases List.mem_cons.mp h with rfl | hm
    · exact le_foldl_max xs a
    · exact mem_le_foldl_max hm x

theorem listMax_mem {l : List ℚ} (h : l ≠ []) : listMax l ∈ l := by
  cases l with
  | nil => exact absurd rfl h
  | cons x xs =>
    rcases foldl_max_choice xs x with h1 | h1
    · exact List.mem_cons.mpr (Or.inl (by simpa [listMax] using h1))
    · exact List.mem_cons_of_mem x (by simpa [listMax] using h1)

theorem foldl_min_le (xs : List ℚ) (b : ℚ) : xs.foldl min b ≤ b := by
  induction xs generalizing b with
  | nil => exact le_refl b
  | cons x xs ih => exact le_trans (ih (min b x)) (min_le_left b x)

theorem foldl_min_le_mem {a : ℚ} {xs : List ℚ} (h : a ∈ xs) (b : ℚ) :
    xs.foldl min b ≤ a := by
  induction xs generalizing b with
  | nil => cases h
  | cons y ys ih =>
    rcases List.mem_cons.mp h with rfl | hm
    · exact le_trans (foldl_min_le ys (min b a)) (min_le_right b a)
    · exact ih hm (min b y)

theorem foldl_min_choice (xs : List ℚ) (b : ℚ) :
    xs.foldl min b = b ∨ xs.foldl min b ∈ xs := by
  induction xs generalizing b with
  | nil => exact Or.inl rfl
  | cons y ys ih =>
    show ys.foldl min (min b y) = b ∨ ys.foldl min (min b y) ∈ y :: ys
    rcases ih (min b y) with h | h
    · rcases min_choice b y with hb | hy
      · rw [hb] at h ⊢
        exact Or.inl h
      · exact Or.inr (by rw [h, hy]; exact List.mem_cons_self y ys)
    · exact Or.inr (List.mem_cons_of_mem y h)

theorem listMin_le {a : ℚ} {l : List ℚ} (h : a ∈ l) : listMin l ≤ a := by
  cases l with
  | nil => cases h
  | cons x xs =>
    rcases List.mem_cons.mp h with rfl | hm
    · exact foldl_min_le xs a
    · exact foldl_min_le_mem hm x

theorem listMin_mem {l : List ℚ} (h : l ≠ []) : listMin l ∈ l := by
  cases l with
  | nil => exact absurd rfl h
  | cons x xs =>
    rcases foldl_min_choice xs x with h1 | h1
    · exact List.mem_cons.mpr (Or.inl (by simpa [listMin] using h1))
    · exact List.mem_cons_of_mem x (by simpa [listMin] using h1)

theorem listMin_le_listMax {l : List ℚ} (h : l ≠ []) : listMin l ≤ listMax l :=
  le_trans (listMin_le (listMax_mem h)) (le_refl _)

/-! ### The first-maximum scan `argmaxUpTo` -/

theorem argmaxUpTo_lt (f : Nat → ℚ) {k : Nat} (hk : 0 < k) :
    argmaxUpTo f k < k := by
  induction k with
  | zero => cases hk
  | succ n ih =>
    show (let b := argmaxUpTo f n; if f b < f n then n else b) < n + 1
    by_cases h : f (argmaxUpTo f n) < f n
    · simp [h]
    · simp only [h, if_false]
      rcases Nat.eq_zero_or_pos n with rfl | hn
      · simp [argmaxUpTo]
      · exact Nat.lt_succ_of_lt (ih hn)

theorem le_argmaxUpTo (f : Nat → ℚ) {k t : Nat} (ht : t < k) :
    f t ≤ f (argmaxUpTo f k) := by
  induction k with
  | zero => cases ht
  | succ n ih =>
    show f t ≤ f (let b := argmaxUpTo f n; if f b < f n then n else b)
    by_cases h : f (argmaxUpTo f n) < f n
    · simp only [h, if_true]
      rcases Nat.lt_succ_iff_lt_or_eq.mp ht with ht' | rfl
      · exact le_trans (ih ht') (le_of_lt h)
      · exact le_refl _
    · simp only [h, if_false]
      rcases Nat.lt_succ_iff_lt_or_eq.mp ht with ht' | rfl
      · exact ih ht'
      · exact le_of_not_lt h

theorem lt_of_before_argmaxUpTo (f : Nat → ℚ) :
    ∀ k t, t < argmaxUpTo f k → f t < f (argmaxUpTo f k) := by
  intro k
  induction k with
  | zero => intro t ht; simp [argmaxUpTo] at ht
  | succ n ih =>
    intro t ht
    by_cases h : f (argmaxUpTo f n) < f n
    · have hA : argmaxUpTo f (n + 1) = n := by simp [argmaxUpTo, h]
      rw [hA] at ht ⊢
      exact lt_of_le_of_lt (le_argmaxUpTo f ht) h
    · have hA : argmaxUpTo f (n + 1) = argmaxUpTo f n := by simp [argmaxUpTo, h]
      rw [hA] at ht ⊢
      exact ih t ht

theorem argmaxUpTo_val_eq_listMax (f : Nat → ℚ) {k : Nat} (hk : 0 < k) :
    f (argmaxUpTo f k) = listMax ((List.range k).map f) := by
  apply le_antisymm
  · exact le_listMax (List.mem_map_of_mem f (List.mem_range.mpr (argmaxUpTo_lt f hk)))
  · have h := listMax_mem (l := (List.range k).map f) (by simp [hk, Nat.pos_iff_ne_zero.mp hk])
    rcases List.mem_map.mp h with ⟨t, htk, hv⟩
    rw [← hv]
    exact le_argmaxUpTo f (List.mem_range.mp htk)

/-! ### Structure of the split partition -/

theorem splitParts_length (p : Partition) (wi : Nat) (pred : Nat → Bool) :
    (splitParts p wi pred).length = p.length + 1 := by
  simp [splitParts]

theorem splitParts_getD_other (p : Partition) (wi : Nat) (pred : Nat → Bool)
    {k : Nat} (hk : k < p.length) (hne : k ≠ wi) :
    (splitParts p wi pred).getD k [] = p.getD k [] := by
  unfold splitParts
  rw [List.getD_eq_getElem?_getD, List.getD_eq_getElem?_getD,
    List.getElem?_append_left (by simpa using hk),
    List.getElem?_set_ne (fun h => hne h.symm)]
  rw [List.getD_eq_getElem?_getD]

theorem splitParts_getD_old (p : Partition) (wi : Nat) (pred : Nat → Bool)
    (hwi : wi < p.length) :
    (splitParts p wi pred).getD wi [] =
      (p.getD wi []).filter fun u => !(pred u) := by
  unfold splitParts
  rw [List.getD_eq_getElem?_getD,
    List.getElem?_append_left (by simpa using hwi),
    List.getElem?_set_self (by simpa using hwi)]
  rfl

theorem splitParts_getD_new (p : Partition) (wi : Nat) (pred : Nat → Bool) :
    (splitParts p wi pred).getD p.length [] = (p.getD wi []).filter pred := by
  unfold splitParts
  rw [List.getD_eq_getElem?_getD,
    List.getElem?_append_right (by simp)]
  simp

/-- Inversion of a successful `split_color`: the result has the
`splitParts` shape for the threshold predicate, the split color index is
in range, and both sides of the split are non-empty. -/
theorem splitColor_some_shape {s : ColorStatus} {p : Partition}
    {wi wj : Nat} {t : ℚ} {p' : Partition}
    (h : splitColor s p wi wj t = some p') :
    p' = splitParts p wi (fun u => decide (t < s.neighbor u wj)) ∧
      wi < p.length ∧
      (p.getD wi []).filter (fun u => !decide (t < s.neighbor u wj)) ≠ [] ∧
      (p.getD wi []).filter (fun u => decide (t < s.neighbor u wj)) ≠ [] := by
  unfold splitColor at h
  by_cases hc :
      ((p.getD wi []).filter fun u => !decide (t < s.neighbor u wj)).isEmpty ||
        ((p.getD wi []).filter fun u => decide (t < s.neighbor u wj)).isEmpty
  · rw [if_pos hc] at h
    cases h
  · rw [if_neg hc] at h
    rw [Bool.or_eq_true, not_or] at hc
    obtain ⟨hr, he⟩ := hc
    have hr' : (p.getD wi []).filter (fun u => !decide (t < s.neighbor u wj)) ≠ [] := by
      simpa [List.isEmpty_iff] using hr
    have he' : (p.getD wi []).filter (fun u => decide (t < s.neighbor u wj)) ≠ [] := by
      simpa [List.isEmpty_iff] using he
    have hwi : wi < p.length := by
      by_contra hge
      have : p.getD wi [] = [] := by
        rw [List.getD_eq_getElem?_getD, List.getElem?_eq_none (by omega)]
        rfl
      rw [this] at hr'
      exact hr' rfl
    refine ⟨?_, hwi, hr', he'⟩
    cases h
    rfl

/-- A failing `split_color` is exactly a degenerate split: one of the two
sides of the threshold predicate is empty. -/
theorem splitColor_none_iff (s : ColorStatus) (p : Partition)
    (wi wj : Nat) (t : ℚ) :
    splitColor s p wi wj t = none ↔
      ((p.getD wi []).filter (fun u => !decide (t < s.neighbor u wj)) = [] ∨
        (p.getD wi []).filter (fun u => decide (t < s.neighbor u wj)) = []) := by
  unfold splitColor
  by_cases hc :
      ((p.getD wi []).filter fun u => !decide (t < s.neighbor u wj)).isEmpty ||
        ((p.getD wi []).filter fun u => decide (t < s.neighbor u wj)).isEmpty
  · rw [if_pos hc]
    rw [Bool.or_eq_true] at hc
    simp only [List.isEmpty_iff] at hc
    exact ⟨fun _ => hc, fun _ => rfl⟩
  · rw [if_neg hc]
    rw [Bool.or_eq_true, not_or] at hc
    obtain ⟨hr, he⟩ := hc
    simp only [List.isEmpty_iff] at hr he
    constructor
    · intro h
      cases h
    · intro h
      rcases h with h | h
      · exact absurd h hr
      · exact absurd h he

/-! ### `update_status` agrees with `init_status` on the split partition -/

theorem statusInv_initStatus (w : Weights) (p : Partition) :
    StatusInv w p (initStatus w p) :=
  ⟨fun _ _ _ => rfl, fun _ _ _ _ => ⟨rfl, rfl, rfl⟩⟩

theorem nbInit_split_other (w : Weights) (p : Partition) (wi : Nat)
    (pred : Nat → Bool) {u j : Nat} (hj : j < p.length) (hji : j ≠ wi) :
    nbInit w (splitParts p wi pred) u j = nbInit w p u j := by
  unfold nbInit
  rw [splitParts_getD_other p wi pred hj hji]

theorem updNb_eq_nbInit (w : Weights) (p : Partition) (s : ColorStatus)
    (wi : Nat) (pred : Nat → Bool)
    (hnb : ∀ u c, c < p.length → s.neighbor u c = nbInit w p u c)
    (u c : Nat) (hc : c < p.length + 1) :
    updNb s w (splitParts p wi pred) wi p.length u c =
      nbInit w (splitParts p wi pred) u c := by
  unfold updNb
  by_cases h1 : c = wi
  · subst h1
    rw [if_pos rfl]
    rfl
  · rw [if_neg h1]
    by_cases h2 : c = p.length
    · subst h2
      rw [if_pos rfl]
      rfl
    · rw [if_neg h2]
      have hc' : c < p.length := by omega
      rw [nbInit_split_other w p wi pred hc' h1]
      exact hnb u c hc'

theorem updCols_eq_aggInit (agg : List ℚ → ℚ) (w : Weights) (p : Partition)
    (s : ColorStatus) (wi : Nat) (pred : Nat → Bool) (base : Nat → Nat → ℚ)
    (hnb : ∀ u c, c < p.length → s.neighbor u c = nbInit w p u c)
    (hbase : ∀ i j, i < p.length → j < p.length → base i j = aggInit agg w p i j)
    (i j : Nat) (hi : i < p.length + 1) (hj : j < p.length + 1) :
    updCols agg base (updNb s w (splitParts p wi pred) wi p.length)
        (splitParts p wi pred) wi p.length i j =
      aggInit agg w (splitParts p wi pred) i j := by
  have hfun : ∀ c, c < p.length + 1 →
      (fun u => updNb s w (splitParts p wi pred) wi p.length u c) =
        (fun u => nbInit w (splitParts p wi pred) u c) :=
    fun c hc => funext fun u => updNb_eq_nbInit w p s wi pred hnb u c hc
  unfold updCols updRows
  by_cases hj1 : j = wi
  · subst hj1
    rw [if_pos rfl, hfun j (by omega)]
    rfl
  · rw [if_neg hj1]
    by_cases hj2 : j = p.length
    · subst hj2
      rw [if_pos rfl, hfun p.length (by omega)]
      rfl
    · rw [if_neg hj2]
      have hj' : j < p.length := by omega
      by_cases hi1 : i = wi
      · subst hi1
        rw [if_pos rfl, hfun j hj]
        rfl
      · rw [if_neg hi1]
        by_cases hi2 : i = p.length
        · subst hi2
          rw [if_pos rfl, hfun j hj]
          rfl
        · rw [if_neg hi2]
          have hi' : i < p.length := by omega
          rw [hbase i j hi' hj']
          unfold aggInit
          rw [splitParts_getD_other p wi pred hi' hi1]
          have : (fun u => nbInit w (splitParts p wi pred) u j) =
              (fun u => nbInit w p u j) :=
            funext fun u => nbInit_split_other w p wi pred hj' hj1
          rw [this]

/-- The key incremental-repair theorem: when a status is consistent with
partition `p` and `p` is replaced by an arbitrary two-way split of color
`wi` (retain in place, eject appended), running `update_status` with
`old = wi` and `new = p.length` restores consistency with the new
partition — its neighbor matrix and active blocks are exactly what
`init_status` would compute from scratch. -/
theorem statusInv_updateStatus (w : Weights) (p : Partition) (s : ColorStatus)
    (wi : Nat) (pred : Nat → Bool)
    (hInv : StatusInv w p s) :
    StatusInv w (splitParts p wi pred)
      (updateStatus s w (splitParts p wi pred) wi p.length) := by
  obtain ⟨hnb, hmat⟩ := hInv
  constructor
  · intro u c hc
    rw [splitParts_length] at hc
    exact updNb_eq_nbInit w p s wi pred hnb u c hc
  · intro i j hi hj
    rw [splitParts_length] at hi hj
    have hu := updCols_eq_aggInit listMax w p s wi pred s.upper hnb
      (fun i j hi hj => (hmat i j hi hj).1) i j hi hj
    have hl := updCols_eq_aggInit listMin w p s wi pred s.lower hnb
      (fun i j hi hj => (hmat i j hi hj).2.1) i j hi hj
    refine ⟨hu, hl, ?_⟩
    show updCols listMax s.upper _ _ wi p.length i j -
        updCols listMin s.lower _ _ wi p.length i j = _
    rw [hu, hl]
    rfl

/-! ### The partition invariant -/

theorem partInv_initial (v : Nat) (hv : 0 < v) : PartInv v [List.range v] := by
  refine ⟨?_, ?_, ?_⟩
  · intro k hk
    have hk0 : k = 0 := by simpa using hk
    subst hk0
    simp only [List.getD_cons_zero]
    simp [List.range_eq_nil]
    omega
  · intro i j hi hj hne
    simp only [List.length_singleton] at hi hj
    omega
  · intro u
    constructor
    · intro hu
      exact ⟨0, by simp, by simpa using hu⟩
    · rintro ⟨k, hk, hu⟩
      simp only [List.length_singleton] at hk
      interval_cases k
      simpa using hu

theorem partInv_splitParts {v : Nat} {p : Partition} {wi : Nat}
    {pred : Nat → Bool} (hP : PartInv v p) (hwi : wi < p.length)
    (hre : (p.getD wi []).filter (fun u => !(pred u)) ≠ [])
    (hej : (p.getD wi []).filter pred ≠ []) :
    PartInv v (splitParts p wi pred) := by
  obtain ⟨hne, hdis, hcov⟩ := hP
  have hm := splitParts_length p wi pred
  -- membership in a color of the split partition, by index
  have hmem : ∀ k, k < p.length + 1 → ∀ u,
      (u ∈ (splitParts p wi pred).getD k [] ↔
        (k = p.length ∧ u ∈ p.getD wi [] ∧ pred u = true) ∨
          (k = wi ∧ u ∈ p.getD wi [] ∧ pred u = false) ∨
          (k < p.length ∧ k ≠ wi ∧ u ∈ p.getD k [])) := by
    intro k hk u
    by_cases h1 : k = p.length
    · subst h1
      rw [splitParts_getD_new]
      simp [List.mem_filter]
      omega
    · by_cases h2 : k = wi
      · rw [h2, splitParts_getD_old p wi pred hwi]
        constructor
        · intro hu0
          rw [List.mem_filter] at hu0
          refine Or.inr (Or.inl ⟨rfl, hu0.1, ?_⟩)
          simpa using hu0.2
        · intro h0
          rw [List.mem_filter]
          rcases h0 with ⟨h, _⟩ | ⟨_, hu, hp⟩ | ⟨_, h, _⟩
          · omega
          · exact ⟨hu, by simp [hp]⟩
          · exact absurd rfl h
      · have hk' : k < p.length := by omega
        rw [splitParts_getD_other p wi pred hk' h2]
        constructor
        · intro hu
          exact Or.inr (Or.inr ⟨hk', h2, hu⟩)
        · rintro (⟨h, _⟩ | ⟨h, _⟩ | ⟨_, _, hu⟩)
          · omega
          · exact absurd h h2
          · exact hu
  refine ⟨?_, ?_, ?_⟩
  · intro k hk
    rw [hm] at hk
    by_cases h1 : k = p.length
    · subst h1
      rw [splitParts_getD_new]
      exact hej
    · by_cases h2 : k = wi
      · rw [h2, splitParts_getD_old p wi pred hwi]
        exact hre
      · rw [splitParts_getD_other p wi pred (by omega) h2]
        exact hne k (by omega)
  · intro i j hi hj hij u hui huj
    rw [hm] at hi hj
    rw [hmem i hi u] at hui
    rw [hmem j hj u] at huj
    rcases hui with ⟨hi1, hui, hpi⟩ | ⟨hi1, hui, hpi⟩ | ⟨hi1, hi2, hui⟩ <;>
      rcases huj with ⟨hj1, huj, hpj⟩ | ⟨hj1, huj, hpj⟩ | ⟨hj1, hj2, huj⟩
    · omega
    · rw [hpi] at hpj
      cases hpj
    · exact hdis wi j hwi hj1 (by omega) u hui huj
    · rw [hpi] at hpj
      cases hpj
    · omega
    · exact hdis wi j hwi hj1 (by omega) u hui huj
    · exact hdis i wi hi1 hwi (by omega) u hui huj
    · exact hdis i wi hi1 hwi (by omega) u hui huj
    · exact hdis i j hi1 hj1 (by omega) u hui huj
  · intro u
    rw [hcov u]
    constructor
    · rintro ⟨k, hk, hu⟩
      by_cases h2 : k = wi
      · rw [h2] at hu
        by_cases hp : pred u
        · exact ⟨p.length, by omega, by
            rw [hmem p.length (by omega) u]
            exact Or.inl ⟨rfl, hu, hp⟩⟩
        · exact ⟨wi, by omega, by
            rw [hmem wi (by omega) u]
            exact Or.inr (Or.inl ⟨rfl, hu, by simpa using hp⟩)⟩
      · exact ⟨k, by omega, by
          rw [hmem k (by omega) u]
          exact Or.inr (Or.inr ⟨hk, h2, hu⟩)⟩
    · rintro ⟨k, hk, hu⟩
      rw [hm] at hk
      rw [hmem k hk u] at hu
      rcases hu with ⟨_, hu, _⟩ | ⟨_, hu, _⟩ | ⟨hk', _, hu⟩
      · exact ⟨wi, hwi, hu⟩
      · exact ⟨wi, hwi, hu⟩
      · exact ⟨k, hk', hu⟩

/-! ### Engine-level lemmas -/

theorem pickWitness_val_eq_maxErrBlock (s : ColorStatus) (p : Partition)
    (hm : 0 < p.length) :
    (pickWitness s p).2.2.2 = maxErrBlock s p.length :=
  argmaxUpTo_val_eq_listMax
    (fun t => s.errors (t / p.length) (t % p.length)) (Nat.mul_pos hm hm)

theorem actOn_next_inv {w : Weights} {st : EngineState} {sC : ColorStatus}
    {r : Nat × Nat × ℚ × ℚ} {st' : EngineState}
    (h : actOn w st sC r = .next st') :
    ∃ p', splitColor sC st.p r.1 r.2.1 r.2.2.1 = some p' ∧
      st' = { p := p'
              out := updateStatus st.out w p' r.1 (p'.length - 1)
              inc := updateStatus st.inc (transposeW w) p' r.1 (p'.length - 1) } := by
  unfold actOn at h
  cases hs : splitColor sC st.p r.1 r.2.1 r.2.2.1 with
  | none =>
    rw [hs] at h
    cases h
  | some p' =>
    rw [hs] at h
    cases h
    exact ⟨p', rfl, rfl⟩

theorem actOn_fail_inv {w : Weights} {st : EngineState} {sC : ColorStatus}
    {r : Nat × Nat × ℚ × ℚ} (h : actOn w st sC r = .fail) :
    splitColor sC st.p r.1 r.2.1 r.2.2.1 = none := by
  unfold actOn at h
  cases hs : splitColor sC st.p r.1 r.2.1 r.2.2.1 with
  | none => rfl
  | some p' =>
    rw [hs] at h
    cases h

/-- Inversion of a continuing loop iteration: the new state is obtained
from the old one by a two-way split of some in-range color `wi` with
both sides non-empty, followed by `update_status` on both statuses with
`old = wi` and `new = len(p)` (the pre-split length). -/
theorem qColorStep_next_split {w : Weights} {nc : Option Nat} {qe : ℚ}
    {st st' : EngineState} (h : qColorStep w nc qe st = .next st') :
    ∃ wi pred, wi < st.p.length ∧
      st'.p = splitParts st.p wi pred ∧
      st'.out = updateStatus st.out w st'.p wi st.p.length ∧
      st'.inc = updateStatus st.inc (transposeW w) st'.p wi st.p.length ∧
      (st.p.getD wi []).filter (fun u => !(pred u)) ≠ [] ∧
      (st.p.getD wi []).filter pred ≠ [] := by
  unfold qColorStep at h
  by_cases hb : belowCap st.p.length nc
  · rw [if_pos hb] at h
    by_cases hstop :
        (pickWitness st.inc st.p).2.2.2 ≤ qe ∧ (pickWitness st.out st.p).2.2.2 ≤ qe
    · rw [if_pos hstop] at h
      cases h
    · rw [if_neg hstop] at h
      by_cases hdir :
          (pickWitness st.inc st.p).2.2.2 ≤ (pickWitness st.out st.p).2.2.2
      · rw [if_pos hdir] at h
        obtain ⟨p', hs, hst⟩ := actOn_next_inv h
        obtain ⟨hshape, hwi, hrt, hej⟩ := splitColor_some_shape hs
        have hlen : p'.length - 1 = st.p.length := by
          rw [hshape, splitParts_length]
          omega
        subst hst
        refine ⟨(pickWitness st.out st.p).1,
          (fun u => decide ((pickWitness st.out st.p).2.2.1 <
            st.out.neighbor u (pickWitness st.out st.p).2.1)), hwi, hshape, ?_, ?_,
          hrt, hej⟩
        · show updateStatus st.out w p' (pickWitness st.out st.p).1 (p'.length - 1) =
            updateStatus st.out w p' (pickWitness st.out st.p).1 st.p.length
          rw [hlen]
        · show updateStatus st.inc (transposeW w) p' (pickWitness st.out st.p).1
              (p'.length - 1) =
            updateStatus st.inc (transposeW w) p' (pickWitness st.out st.p).1 st.p.length
          rw [hlen]
      · rw [if_neg hdir] at h
        obtain ⟨p', hs, hst⟩ := actOn_next_inv h
        obtain ⟨hshape, hwi, hrt, hej⟩ := splitColor_some_shape hs
        have hlen : p'.length - 1 = st.p.length := by
          rw [hshape, splitParts_length]
          omega
        subst hst
        refine ⟨(pickWitness st.inc st.p).1,
          (fun u => decide ((pickWitness st.inc st.p).2.2.1 <
            st.inc.neighbor u (pickWitness st.inc st.p).2.1)), hwi, hshape, ?_, ?_,
          hrt, hej⟩
        · show updateStatus st.out w p' (pickWitness st.inc st.p).1 (p'.length - 1) =
            updateStatus st.out w p' (pickWitness st.inc st.p).1 st.p.length
          rw [hlen]
        · show updateStatus st.inc (transposeW w) p' (pickWitness st.inc st.p).1
              (p'.length - 1) =
            updateStatus st.inc (transposeW w) p' (pickWitness st.inc st.p).1 st.p.length
          rw [hlen]
  · rw [if_neg hb] at h
    cases h

/-- The master reachability invariant: every reachable state has a valid
partition and both statuses consistent with it. -/
theorem reach_inv {w : Weights} {v : Nat} {nc : Option Nat} {qe : ℚ}
    {st : EngineState} (hre : Reach w v nc qe st) (hv : 0 < v) :
    PartInv v st.p ∧ StatusInv w st.p st.out ∧
      StatusInv (transposeW w) st.p st.inc := by
  induction hre with
  | init =>
    exact ⟨partInv_initial v hv, statusInv_initStatus _ _, statusInv_initStatus _ _⟩
  | step _ hstep ih =>
    obtain ⟨hP, hO, hI⟩ := ih
    obtain ⟨wi, pred, hwi, hp, ho, hi, hrt, hej⟩ := qColorStep_next_split hstep
    refine ⟨?_, ?_, ?_⟩
    · rw [hp]
      exact partInv_splitParts hP hwi hrt hej
    · rw [ho, hp]
      exact statusInv_updateStatus w _ _ wi pred hO
    · rw [hi, hp]
      exact statusInv_updateStatus _ _ _ wi pred hI

/-! ### Claims -/

/-- Claim C1: for every reachable engine state and every successful split of
color `old_color` that appends `new_color`, running `update_status` on a
`DirectionalStatus` (with that direction's weights) leaves the status's
neighbor matrix and the active `m × m` blocks of `upper`, `lower` and
`errors` equal to what `init_status` would compute from scratch on the
updated partition with the same weights. -/
theorem claim_C1_update_matches_init (w : Weights) (v : Nat) (nc : Option Nat)
    (qe : ℚ) (st : EngineState) (hre : Reach w v nc qe st) (hv : 0 < v)
    (sC : ColorStatus) (wi wj : Nat) (t : ℚ) (p' : Partition)
    (hs : splitColor sC st.p wi wj t = some p') :
    AgreesOn p'.length
        (updateStatus st.out w p' wi (p'.length - 1)) (initStatus w p') ∧
      AgreesOn p'.length
        (updateStatus st.inc (transposeW w) p' wi (p'.length - 1))
        (initStatus (transposeW w) p') := by
  obtain ⟨_, hO, hI⟩ := reach_inv hre hv
  obtain ⟨hshape, hwi, _, _⟩ := splitColor_some_shape hs
  have hlen : p'.length - 1 = st.p.length := by
    rw [hshape, splitParts_length]
    omega
  rw [hlen, hshape]
  exact ⟨statusInv_updateStatus w st.p st.out wi _ hO,
    statusInv_updateStatus (transposeW w) st.p st.inc wi _ hI⟩

/-- Witness for C1: a concrete reachable state and successful split on the
two-node graph `w2`; the updated outgoing status agrees with a
from-scratch `init_status` at the recomputed entry `(0, 0)`. -/
theorem claim_C1_witness :
    (updateStatus (initState w2 2).out w2 [[0], [1]] 0
        (([[0], [1]] : Partition).length - 1)).errors 0 0 =
      (initStatus w2 [[0], [1]]).errors 0 0 := by
  have h := claim_C1_update_matches_init w2 2 none 0 (initState w2 2)
    Reach.init (by decide) (initState w2 2).out 0 0 (1 / 2) [[0], [1]]
    (by norm_num [initState, initStatus, splitColor, nbInit, degSum, w2,
      List.range_succ, List.filter])
  exact ((h.1).2 0 0 (by norm_num) (by norm_num)).2.2

/-- Claim C3: the partition is a sequence of pairwise-disjoint, non-empty
node sets whose union is the full set of `v` nodes, in every reachable
state; this holds initially (one color with all nodes) and is preserved by
every successful `split_color`. -/
theorem claim_C3_partition_invariant :
    (∀ (w : Weights) (v : Nat) (nc : Option Nat) (qe : ℚ) (st : EngineState),
      Reach w v nc qe st → 0 < v → PartInv v st.p) ∧
      (∀ v : Nat, 0 < v → PartInv v [List.range v]) ∧
      (∀ (v : Nat) (s : ColorStatus) (p : Partition) (wi wj : Nat) (t : ℚ)
        (p' : Partition), PartInv v p → splitColor s p wi wj t = some p' →
        PartInv v p') := by
  refine ⟨?_, partInv_initial, ?_⟩
  · intro w v nc qe st hre hv
    exact (reach_inv hre hv).1
  · intro v s p wi wj t p' hP hs
    obtain ⟨hshape, hwi, hrt, hej⟩ := splitColor_some_shape hs
    rw [hshape]
    exact partInv_splitParts hP hwi hrt hej

/-- Witness for C3: the invariant transported across the concrete split of
`[[0, 1]]` into `[[0], [1]]` on the two-node graph `w2`. -/
theorem claim_C3_witness : PartInv 2 [[0], [1]] := by
  have hbase : PartInv 2 [List.range 2] :=
    claim_C3_partition_invariant.2.1 2 (by decide)
  have hbase' : PartInv 2 [[0, 1]] := by
    have : List.range 2 = [0, 1] := by rfl
    rwa [this] at hbase
  exact claim_C3_partition_invariant.2.2 2 (initState w2 2).out [[0, 1]] 0 0
    (1 / 2) [[0], [1]] hbase'
    (by norm_num [initState, initStatus, splitColor, nbInit, degSum, w2,
      List.range_succ, List.filter])

/-- Claim C5: `split_color` fails exactly when the retain side or the eject
side of the threshold predicate would be empty (and, being pure, leaves no
partial state); on success, the retain set replaces the split color, the
eject set is appended at index equal to the old length, every other color
is untouched, and the color count grows by exactly one. -/
theorem claim_C5_split_failure_success (s : ColorStatus) (p : Partition)
    (wi wj : Nat) (t : ℚ) :
    (splitColor s p wi wj t = none ↔
      ((p.getD wi []).filter (fun u => !decide (t < s.neighbor u wj)) = [] ∨
        (p.getD wi []).filter (fun u => decide (t < s.neighbor u wj)) = [])) ∧
      (∀ p', splitColor s p wi wj t = some p' →
        p'.length = p.length + 1 ∧
          p'.getD wi [] =
            (p.getD wi []).filter (fun u => !decide (t < s.neighbor u wj)) ∧
          p'.getD p.length [] =
            (p.getD wi []).filter (fun u => decide (t < s.neighbor u wj)) ∧
          ∀ k, k < p.length → k ≠ wi → p'.getD k [] = p.getD k []) := by
  refine ⟨splitColor_none_iff s p wi wj t, ?_⟩
  intro p' hs
  obtain ⟨hshape, hwi, hrt, hej⟩ := splitColor_some_shape hs
  subst hshape
  exact ⟨splitParts_length p wi _, splitParts_getD_old p wi _ hwi,
    splitParts_getD_new p wi _,
    fun k hk hkne => splitParts_getD_other p wi _ hk hkne⟩

/-- Witness for C5: on the concrete split of `[[0, 1]]` into `[[0], [1]]`,
the color count grows from 1 to 2. -/
theorem claim_C5_witness : ([[0], [1]] : Partition).length = ([[0, 1]] : Partition).length + 1 :=
  ((claim_C5_split_failure_success (initState w2 2).out [[0, 1]] 0 0 (1 / 2)).2
    [[0], [1]]
    (by norm_num [initState, initStatus, splitColor, nbInit, degSum, w2,
      List.range_succ, List.filter])).1

theorem flat_div {m i j : Nat} (hm : 0 < m) (hj : j < m) :
    (i * m + j) / m = i := by
  rw [Nat.add_comm, Nat.mul_comm, Nat.add_mul_div_left j i hm,
    Nat.div_eq_of_lt hj, Nat.zero_add]

theorem flat_mod {m i j : Nat} (hj : j < m) : (i * m + j) % m = j := by
  rw [Nat.add_comm, Nat.mul_comm, Nat.add_mul_mod_self_left,
    Nat.mod_eq_of_lt hj]

theorem flat_lt {m i j : Nat} (hi : i < m) (hj : j < m) :
    i * m + j < m * m :=
  lt_of_lt_of_le (Nat.add_lt_add_left hj (i * m))
    (le_of_eq_of_le (Nat.succ_mul i m).symm (Nat.mul_le_mul_right m hi))

/-- Claim C6: `pick_witness` returns the color pair `(i, j)` maximizing
`errors[i][j]` over the active `m × m` block, choosing the first maximum
in row-major flattened scan order among ties, together with that maximum
value and, as the split threshold, the mean of `neighbor[node][j]` over
the nodes of color `i`. -/
theorem claim_C6_pick_witness (s : ColorStatus) (p : Partition)
    (hm : 0 < p.length) :
    (pickWitness s p).1 < p.length ∧
      (pickWitness s p).2.1 < p.length ∧
      (pickWitness s p).2.2.2 =
        s.errors (pickWitness s p).1 (pickWitness s p).2.1 ∧
      (∀ i j, i < p.length → j < p.length →
        s.errors i j ≤ (pickWitness s p).2.2.2) ∧
      (∀ i j, i < p.length → j < p.length →
        i * p.length + j <
          (pickWitness s p).1 * p.length + (pickWitness s p).2.1 →
        s.errors i j < (pickWitness s p).2.2.2) ∧
      (pickWitness s p).2.2.1 =
        ((p.getD (pickWitness s p).1 []).map fun u =>
          s.neighbor u (pickWitness s p).2.1).sum /
          ((p.getD (pickWitness s p).1 []).length : ℚ) := by
  have hk : 0 < p.length * p.length := Nat.mul_pos hm hm
  have targ :
      argmaxUpTo (fun t => s.errors (t / p.length) (t % p.length))
        (p.length * p.length) < p.length * p.length :=
    argmaxUpTo_lt _ hk
  refine ⟨?_, ?_, rfl, ?_, ?_, ?_⟩
  · exact (Nat.div_lt_iff_lt_mul hm).mpr targ
  · exact Nat.mod_lt _ hm
  · intro i j hi hj
    have h2 : s.errors ((i * p.length + j) / p.length)
        ((i * p.length + j) % p.length) ≤ (pickWitness s p).2.2.2 :=
      le_argmaxUpTo (fun t => s.errors (t / p.length) (t % p.length))
        (flat_lt hi hj)
    rw [flat_div hm hj, flat_mod hj] at h2
    exact h2
  · intro i j hi hj hlt
    have hteq :
        argmaxUpTo (fun t => s.errors (t / p.length) (t % p.length))
            (p.length * p.length) / p.length * p.length +
          argmaxUpTo (fun t => s.errors (t / p.length) (t % p.length))
            (p.length * p.length) % p.length =
          argmaxUpTo (fun t => s.errors (t / p.length) (t % p.length))
            (p.length * p.length) := by
      rw [Nat.mul_comm]
      exact Nat.div_add_mod _ _
    have hlt' : i * p.length + j <
        argmaxUpTo (fun t => s.errors (t / p.length) (t % p.length))
          (p.length * p.length) := by
      rw [← hteq]
      exact hlt
    have h2 : s.errors ((i * p.length + j) / p.length)
        ((i * p.length + j) % p.length) < (pickWitness s p).2.2.2 :=
      lt_of_before_argmaxUpTo
        (fun t => s.errors (t / p.length) (t % p.length))
        (p.length * p.length) (i * p.length + j) hlt'
    rw [flat_div hm hj, flat_mod hj] at h2
    exact h2
  · have hgen : ∀ (l : List Nat) (g : Nat → ℚ),
        listMean (l.map g) = (l.map g).sum / (l.length : ℚ) := by
      intro l g
      unfold listMean
      rw [List.length_map]
    exact hgen _ _

/-- Witness for C6: the witness pair on the concrete two-color partition of
the graph `w2` lies inside the active block. -/
theorem claim_C6_witness :
    (pickWitness (initStatus w2 [[0], [1]]) [[0], [1]]).1 <
        ([[0], [1]] : Partition).length ∧
      (pickWitness (initStatus w2 [[0], [1]]) [[0], [1]]).2.1 <
        ([[0], [1]] : Partition).length :=
  ⟨(claim_C6_pick_witness (initStatus w2 [[0], [1]]) [[0], [1]] (by norm_num)).1,
    (claim_C6_pick_witness (initStatus w2 [[0], [1]]) [[0], [1]] (by norm_num)).2.1⟩

theorem statusInv_errors {w : Weights} {p : Partition} {s : ColorStatus}
    (hInv : StatusInv w p s) (hne : ∀ k, k < p.length → p.getD k [] ≠ [])
    {i j : Nat} (hi : i < p.length) (hj : j < p.length) :
    s.errors i j = s.upper i j - s.lower i j ∧ 0 ≤ s.errors i j := by
  obtain ⟨hu, hl, he⟩ := hInv.2 i j hi hj
  constructor
  · rw [he, hu, hl]
    rfl
  · rw [he]
    have hmapne : (p.getD i []).map (fun u => nbInit w p u j) ≠ [] := by
      rw [Ne, List.map_eq_nil_iff]
      exact hne i hi
    exact sub_nonneg.mpr (listMin_le_listMax hmapne)

/-- Claim C8: at every point of a run, on the active block of either
status, `errors[i][j] = upper[i][j] - lower[i][j]` and `errors[i][j] ≥ 0`. -/
theorem claim_C8_errors_shape_nonneg (w : Weights) (v : Nat) (nc : Option Nat)
    (qe : ℚ) (st : EngineState) (hre : Reach w v nc qe st) (hv : 0 < v) :
    ∀ i j, i < st.p.length → j < st.p.length →
      (st.out.errors i j = st.out.upper i j - st.out.lower i j ∧
        0 ≤ st.out.errors i j) ∧
      (st.inc.errors i j = st.inc.upper i j - st.inc.lower i j ∧
        0 ≤ st.inc.errors i j) := by
  obtain ⟨hP, hO, hI⟩ := reach_inv hre hv
  intro i j hi hj
  exact ⟨statusInv_errors hO hP.1 hi hj, statusInv_errors hI hP.1 hi hj⟩

/-- Witness for C8: the invariant instantiated at entry `(0, 0)` of the
initial state of the one-node graph `w0`. -/
theorem claim_C8_witness :
    ((initState w0 1).out.errors 0 0 =
        (initState w0 1).out.upper 0 0 - (initState w0 1).out.lower 0 0 ∧
      0 ≤ (initState w0 1).out.errors 0 0) ∧
      ((initState w0 1).inc.errors 0 0 =
          (initState w0 1).inc.upper 0 0 - (initState w0 1).inc.lower 0 0 ∧
        0 ≤ (initState w0 1).inc.errors 0 0) :=
  claim_C8_errors_shape_nonneg w0 1 none 0 (initState w0 1) Reach.init
    (by decide) 0 0 (by norm_num [initState]) (by norm_num [initState])

theorem actOn_ne_stop (w : Weights) (st : EngineState) (sC : ColorStatus)
    (r : Nat × Nat × ℚ × ℚ) (st0 : EngineState) :
    actOn w st sC r ≠ .stop st0 := by
  unfold actOn
  split
  · intro h
    cases h
  · intro h
    cases h

/-- Claim C2: each loop iteration stops exactly when both directions'
maximum block error is at or below `q_errors` or the color count has
reached `n_colors`; otherwise it acts on the direction with the larger
maximum error (ties favoring outgoing), and a continuing iteration splits
that direction's witness color by the predicate
`neighbor[node][witness_j] > threshold` with the eject side appended,
then updates both statuses with the direction-appropriate weights. -/
theorem claim_C2_loop_behavior (w : Weights) (nc : Option Nat) (qe : ℚ)
    (st : EngineState) (hm : 0 < st.p.length) :
    (qColorStep w nc qe st = .stop st ↔
      (belowCap st.p.length nc = false ∨
        (maxErrBlock st.inc st.p.length ≤ qe ∧
          maxErrBlock st.out st.p.length ≤ qe))) ∧
      (belowCap st.p.length nc = true →
        ¬(maxErrBlock st.inc st.p.length ≤ qe ∧
          maxErrBlock st.out st.p.length ≤ qe) →
        (maxErrBlock st.inc st.p.length ≤ maxErrBlock st.out st.p.length →
          qColorStep w nc qe st = actOn w st st.out (pickWitness st.out st.p) ∧
            ∀ st', qColorStep w nc qe st = .next st' →
              st'.p = splitParts st.p (pickWitness st.out st.p).1
                (fun u => decide ((pickWitness st.out st.p).2.2.1 <
                  st.out.neighbor u (pickWitness st.out st.p).2.1)) ∧
                st'.out =
                  updateStatus st.out w st'.p (pickWitness st.out st.p).1
                    st.p.length ∧
                st'.inc =
                  updateStatus st.inc (transposeW w) st'.p
                    (pickWitness st.out st.p).1 st.p.length) ∧
        (¬maxErrBlock st.inc st.p.length ≤ maxErrBlock st.out st.p.length →
          qColorStep w nc qe st = actOn w st st.inc (pickWitness st.inc st.p) ∧
            ∀ st', qColorStep w nc qe st = .next st' →
              st'.p = splitParts st.p (pickWitness st.inc st.p).1
                (fun u => decide ((pickWitness st.inc st.p).2.2.1 <
                  st.inc.neighbor u (pickWitness st.inc st.p).2.1)) ∧
                st'.out =
                  updateStatus st.out w st'.p (pickWitness st.inc st.p).1
                    st.p.length ∧
                st'.inc =
                  updateStatus st.inc (transposeW w) st'.p
                    (pickWitness st.inc st.p).1 st.p.length)) := by
  have hvin := pickWitness_val_eq_maxErrBlock st.inc st.p hm
  have hvout := pickWitness_val_eq_maxErrBlock st.out st.p hm
  refine ⟨?_, ?_⟩
  · constructor
    · intro h
      by_cases hb : belowCap st.p.length nc
      · by_cases hcond :
            (pickWitness st.inc st.p).2.2.2 ≤ qe ∧
              (pickWitness st.out st.p).2.2.2 ≤ qe
        · refine Or.inr ?_
          rw [← hvin, ← hvout]
          exact hcond
        · exfalso
          unfold qColorStep at h
          rw [if_pos hb, if_neg hcond] at h
          by_cases hdir :
              (pickWitness st.inc st.p).2.2.2 ≤ (pickWitness st.out st.p).2.2.2
          · rw [if_pos hdir] at h
            exact actOn_ne_stop w st st.out _ st h
          · rw [if_neg hdir] at h
            exact actOn_ne_stop w st st.inc _ st h
      · exact Or.inl (Bool.not_eq_true _ ▸ Bool.of_not_eq_true hb)
    · intro h
      rcases h with hb | hcond
      · unfold qColorStep
        rw [hb]
        rfl
      · unfold qColorStep
        rw [← hvin, ← hvout] at hcond
        by_cases hb : belowCap st.p.length nc
        · rw [if_pos hb, if_pos hcond]
        · rw [if_neg hb]
  · intro hb hcond
    rw [← hvin, ← hvout] at hcond
    constructor
    · intro hdir
      rw [← hvin, ← hvout] at hdir
      have hstep : qColorStep w nc qe st =
          actOn w st st.out (pickWitness st.out st.p) := by
        unfold qColorStep
        rw [if_pos hb, if_neg hcond, if_pos hdir]
      refine ⟨hstep, ?_⟩
      intro st' hnext
      rw [hstep] at hnext
      obtain ⟨p', hs, hst⟩ := actOn_next_inv hnext
      obtain ⟨hshape, hwi, _, _⟩ := splitColor_some_shape hs
      have hlen : p'.length - 1 = st.p.length := by
        rw [hshape, splitParts_length]
        omega
      subst hst
      exact ⟨hshape, by rw [hlen], by rw [hlen]⟩
    · intro hdir
      rw [← hvin, ← hvout] at hdir
      have hstep : qColorStep w nc qe st =
          actOn w st st.inc (pickWitness st.inc st.p) := by
        unfold qColorStep
        rw [if_pos hb, if_neg hcond, if_neg hdir]
      refine ⟨hstep, ?_⟩
      intro st' hnext
      rw [hstep] at hnext
      obtain ⟨p', hs, hst⟩ := actOn_next_inv hnext
      obtain ⟨hshape, hwi, _, _⟩ := splitColor_some_shape hs
      have hlen : p'.length - 1 = st.p.length := by
        rw [hshape, splitParts_length]
        omega
      subst hst
      exact ⟨hshape, by rw [hlen], by rw [hlen]⟩

/-- Witness for C2: the stop-iff characterization instantiated on the
initial state of the two-node graph `w2`. -/
theorem claim_C2_witness :
    qColorStep w2 none 0 (initState w2 2) = .stop (initState w2 2) ↔
      (belowCap (initState w2 2).p.length none = false ∨
        (maxErrBlock (initState w2 2).inc (initState w2 2).p.length ≤ 0 ∧
          maxErrBlock (initState w2 2).out (initState w2 2).p.length ≤ 0)) :=
  (claim_C2_loop_behavior w2 none 0 (initState w2 2)
    (by norm_num [initState])).1

/-- Claim C7: if, after initialization, both directions' maximum error is
already at or below `q_errors` (or `n_colors` is at most 1), then the loop
performs zero splits and the state returned is the initial one, whose
partition is the single color containing all `v` nodes. -/
theorem claim_C7_idempotent_stop (w : Weights) (v : Nat) (nc : Option Nat)
    (qe : ℚ) (fuel : Nat)
    (h : capLe1 nc = true ∨
      (maxErrBlock (initState w v).out 1 ≤ qe ∧
        maxErrBlock (initState w v).inc 1 ≤ qe)) :
    qColorLoop w nc qe fuel (initState w v) = some (initState w v) ∧
      (initState w v).p = [List.range v] := by
  refine ⟨?_, rfl⟩
  cases fuel with
  | zero => rfl
  | succ n =>
    have hstep : qColorStep w nc qe (initState w v) = .stop (initState w v) := by
      unfold qColorStep
      rcases h with hcap | ⟨ho, hi⟩
      · have hbc : belowCap (initState w v).p.length nc = false := by
          cases nc with
          | none => simp [capLe1] at hcap
          | some k =>
            simp only [capLe1, decide_eq_true_eq] at hcap
            show belowCap 1 (some k) = false
            simp only [belowCap, decide_eq_false_iff_not]
            omega
        rw [hbc]
        rfl
      · by_cases hbc : belowCap (initState w v).p.length nc
        · rw [if_pos hbc, if_pos ?_]
          constructor
          · rw [pickWitness_val_eq_maxErrBlock _ _ (by norm_num [initState])]
            exact hi
          · rw [pickWitness_val_eq_maxErrBlock _ _ (by norm_num [initState])]
            exact ho
        · rw [if_neg hbc]
    show (match qColorStep w nc qe (initState w v) with
      | .stop st' => some st'
      | .next st' => qColorLoop w nc qe n st'
      | .fail => none) = some (initState w v)
    rw [hstep]

/-- Witness for C7: the loop on the one-node edgeless graph stops at once
with the initial single-color partition. -/
theorem claim_C7_witness :
    qColorLoop w0 none 0 3 (initState w0 1) = some (initState w0 1) ∧
      (initState w0 1).p = [List.range 1] :=
  claim_C7_idempotent_stop w0 1 none 0 3
    (Or.inr ⟨by norm_num [maxErrBlock, initState, initStatus, errInit, upInit,
        loInit, aggInit, nbInit, degSum, listMax, listMin, w0, transposeW,
        List.range_succ],
      by norm_num [maxErrBlock, initState, initStatus, errInit, upInit,
        loInit, aggInit, nbInit, degSum, listMax, listMin, w0, transposeW,
        List.range_succ]⟩)

/-- Claim C9: the loop is deterministic — any two complete runs from the
same state (in particular, from the same graph and configuration) end in
the same final partition, with the same colors in the same order, and
report the same final `q_error`. -/
theorem claim_C9_deterministic (w : Weights) (nc : Option Nat) (qe : ℚ)
    (st a b : EngineState) (ha : Run w nc qe st a) (hb : Run w nc qe st b) :
    a.p = b.p ∧ finalQ a = finalQ b := by
  have hab : ∀ b', Run w nc qe st b' → a = b' := by
    clear hb b
    induction ha with
    | @stop st1 st1' hs =>
      intro b' hb'
      cases hb' with
      | stop hs' =>
        have h := hs.symm.trans hs'
        injection h with h
      | next hs' _ =>
        rw [hs] at hs'
        cases hs'
    | @next st1 st1' stF hs hr ih =>
      intro b' hb'
      cases hb' with
      | stop hs' =>
        rw [hs] at hs'
        cases hs'
      | next hs' hr' =>
        have h := hs.symm.trans hs'
        injection h with h
        subst h
        exact ih b' hr'
  rw [hab b hb]
  exact ⟨rfl, rfl⟩

/-- Witness for C9: two (identical) runs on the one-node edgeless graph
agree on the final partition and `q_error`. -/
theorem claim_C9_witness :
    (initState w0 1).p = (initState w0 1).p ∧
      finalQ (initState w0 1) = finalQ (initState w0 1) := by
  have hstep : qColorStep w0 none 0 (initState w0 1) = .stop (initState w0 1) := by
    norm_num [qColorStep, belowCap, pickWitness, argmaxUpTo, initState,
      initStatus, errInit, upInit, loInit, aggInit, nbInit, degSum, listMax,
      listMin, w0, transposeW, List.range_succ]
  exact claim_C9_deterministic w0 none 0 (initState w0 1) (initState w0 1)
    (initState w0 1) (Run.stop hstep) (Run.stop hstep)

/-- Claim C10: `q_color` never reads the `weighting` flag, so the result —
final partition and final `q_error` — is identical whether the flag is
passed as `true` or as `false`. -/
theorem claim_C10_weighting_no_influence (w : Weights) (v : Nat)
    (nc : Option Nat) (qe : ℚ) (fuel : Nat) :
    qColor w v true nc qe fuel = qColor w v false nc qe fuel := rfl

/-- Claim C4 (amended): immediately after splitting the chosen witness pair
`(i, j)` and applying the status update, the recomputed `errors[i][j]`
does not exceed its pre-split value, provided the witness column `j` is a
color other than the split color `i` itself.  (When `j = i` the targeted
column is recomputed against the shrunken color and the spread can grow;
see the counterexample.) -/
theorem claim_C4_amended_monotonic (w : Weights) (p : Partition)
    (s : ColorStatus) (wi wj : Nat) (t : ℚ) (p' : Partition)
    (hInv : StatusInv w p s) (hs : splitColor s p wi wj t = some p')
    (hj : wj < p.length) (hji : wj ≠ wi) :
    (updateStatus s w p' wi (p'.length - 1)).errors wi wj ≤ s.errors wi wj := by
  obtain ⟨hshape, hwi, hrt, hej⟩ := splitColor_some_shape hs
  have hlen : p'.length - 1 = p.length := by
    rw [hshape, splitParts_length]
    omega
  rw [hlen]
  subst hshape
  have hInv' := statusInv_updateStatus w p s wi
    (fun u => decide (t < s.neighbor u wj)) hInv
  have hwi' : wi < (splitParts p wi
      (fun u => decide (t < s.neighbor u wj))).length := by
    rw [splitParts_length]
    omega
  have hj' : wj < (splitParts p wi
      (fun u => decide (t < s.neighbor u wj))).length := by
    rw [splitParts_length]
    omega
  rw [(hInv'.2 wi wj hwi' hj').2.2, (hInv.2 wi wj hwi hj).2.2]
  show errInit w (splitParts p wi fun u => decide (t < s.neighbor u wj)) wi wj ≤
      errInit w p wi wj
  unfold errInit upInit loInit aggInit
  have hcol : ∀ u, nbInit w (splitParts p wi
      (fun u => decide (t < s.neighbor u wj))) u wj = nbInit w p u wj :=
    fun u => nbInit_split_other w p wi _ hj hji
  rw [splitParts_getD_old p wi _ hwi]
  simp only [hcol]
  have h1 : listMax (((p.getD wi []).filter
        (fun u => !decide (t < s.neighbor u wj))).map fun u => nbInit w p u wj) ≤
      listMax ((p.getD wi []).map fun u => nbInit w p u wj) := by
    have hne : ((p.getD wi []).filter
        (fun u => !decide (t < s.neighbor u wj))).map
          (fun u => nbInit w p u wj) ≠ [] := by
      rw [Ne, List.map_eq_nil_iff]
      exact hrt
    obtain ⟨x, hx, hveq⟩ := List.mem_map.mp (listMax_mem hne)
    rw [← hveq]
    exact le_listMax (List.mem_map_of_mem _ (List.mem_of_mem_filter hx))
  have h2 : listMin ((p.getD wi []).map fun u => nbInit w p u wj) ≤
      listMin (((p.getD wi []).filter
        (fun u => !decide (t < s.neighbor u wj))).map fun u => nbInit w p u wj) := by
    have hne : ((p.getD wi []).filter
        (fun u => !decide (t < s.neighbor u wj))).map
          (fun u => nbInit w p u wj) ≠ [] := by
      rw [Ne, List.map_eq_nil_iff]
      exact hrt
    obtain ⟨x, hx, hveq⟩ := List.mem_map.mp (listMin_mem hne)
    rw [← hveq]
    exact listMin_le (List.mem_map_of_mem _ (List.mem_of_mem_filter hx))
  linarith

/-- Witness for the amended C4: a concrete split of `[[0, 1], [2]]` on the
witness pair `(0, 1)` where the recomputed error does not grow. -/
theorem claim_C4_amended_witness :
    (updateStatus (initStatus w3 [[0, 1], [2]]) w3 [[0], [2], [1]] 0
        (([[0], [2], [1]] : Partition).length - 1)).errors 0 1 ≤
      (initStatus w3 [[0, 1], [2]]).errors 0 1 :=
  claim_C4_amended_monotonic w3 [[0, 1], [2]]
    (initStatus w3 [[0, 1], [2]]) 0 1 2 [[0], [2], [1]]
    (statusInv_initStatus w3 [[0, 1], [2]])
    (by norm_num [splitColor, initStatus, nbInit, degSum, w3, List.filter])
    (by norm_num) (by norm_num)

set_option maxHeartbeats 4000000 in
/-- Counterexample to C4 as stated: on the four-node graph `W4` the first
iteration picks witness `(0, 0)` in the outgoing direction (the targeted
column is the split color itself), splits `[[0, 1, 2, 3]]` into
`[[0, 1], [2, 3]]`, and the recomputed `errors[0][0]` after the update is
`4`, strictly above its pre-split value `1`. -/
theorem claim_C4_counterexample :
    (pickWitness (initState W4 4).out (initState W4 4).p).1 = 0 ∧
      (pickWitness (initState W4 4).out (initState W4 4).p).2.1 = 0 ∧
      (stepState (qColorStep W4 none 0 (initState W4 4))).p = [[0, 1], [2, 3]] ∧
      (initState W4 4).out.errors 0 0 = 1 ∧
      (stepState (qColorStep W4 none 0 (initState W4 4))).out.errors 0 0 = 4 ∧
      ¬((stepState (qColorStep W4 none 0 (initState W4 4))).out.errors 0 0 ≤
        (initState W4 4).out.errors 0 0) := by
  have h5 : (initState W4 4).out.errors 0 0 = 1 := by
    norm_num [initState, initStatus, errInit, upInit, loInit, aggInit, nbInit,
      degSum, listMax, listMin, List.range_succ, W4, transposeW]
  have h6 : (stepState (qColorStep W4 none 0 (initState W4 4))).out.errors 0 0 = 4 := by
    norm_num [qColorStep, stepState, initState, initStatus, pickWitness, actOn,
      splitColor, argmaxUpTo, belowCap, errInit, upInit, loInit, aggInit, nbInit,
      degSum, listMean, listMax, listMin, List.range_succ, W4, transposeW,
      List.filter, updateStatus, updNb, updRows, updCols]
  refine ⟨?_, ?_, ?_, h5, h6, ?_⟩
  · norm_num [pickWitness, argmaxUpTo, initState, lt_self_iff_false]
  · norm_num [pickWitness, argmaxUpTo, initState, lt_self_iff_false]
  · norm_num [qColorStep, stepState, initState, initStatus, pickWitness, actOn,
      splitColor, argmaxUpTo, belowCap, errInit, upInit, loInit, aggInit, nbInit,
      degSum, listMean, listMax, listMin, List.range_succ, W4, transposeW,
      List.filter]
  · rw [h5, h6]
    norm_num
